import Mathlib

/-!
Verification of the snappystream framed-stream codec (Go package
`snappystream`): a shallow embedding of the frame writer, the frame reader
and the checksum mask, with theorems about the spec's claims.

Byte sequences are modelled as `List Nat` (each element a byte value),
32-bit machine integers as `Nat` with explicit reduction modulo `2 ^ 32`.
The external snappy block codec and the CRC32 primitive are out of scope
per the spec and are modelled as parameters (the `Codec` structure).
-/

/-- Maximum number of decoded bytes allowed in a snappy framed block
(constant `MaxBlockSize` in `snappystream.go`). -/
def MaxBlockSize : Nat := 65536

/-- Modelled from the spec: the constant `maxEncodedBlockSize` is used by
`reader.readBlock` but its definition is absent from the sources; the spec
bounds the declared payload length by "a maximum of (block-size ceiling + 4)",
so the encoded-block ceiling is the block-size ceiling. -/
def maxEncodedBlockSize : Nat := 65536

/-- Modelled from the spec: block-type tag for compressed blocks (the
constant `blockCompressed` is used but not defined in the sources). -/
def blockCompressed : Nat := 0x00

/-- Modelled from the spec: block-type tag for uncompressed blocks. -/
def blockUncompressed : Nat := 0x01

/-- Modelled from the spec: block-type tag for padding blocks. -/
def blockPadding : Nat := 0xfe

/-- Modelled from the spec: block-type tag of the stream identifier. -/
def blockStreamIdentifier : Nat := 0xff

/-- The 10-byte stream identifier, header included (variable `streamID`). -/
def streamID : List Nat := [0xff, 0x06, 0x00, 0x00, 0x73, 0x4e, 0x61, 0x50, 0x70, 0x59]

/-- Reduction modulo 2^32, the semantics of Go `uint32` wraparound. -/
def u32 (n : Nat) : Nat := n % 4294967296

/-- Go `maskChecksum`: `((c >> 15) | (c << 17)) + 0xa282ead8` in `uint32`
arithmetic (writer.go). -/
def maskChecksum (c : Nat) : Nat :=
  u32 (((c >>> 15) ||| u32 (c <<< 17)) + 0xa282ead8)

/-- Go `unmaskChecksum`: `x := c - 0xa282ead8; (x >> 17) | (x << 15)` in
`uint32` arithmetic (reader.go); subtraction wraps modulo 2^32. -/
def unmaskChecksum (c : Nat) : Nat :=
  let x := u32 (c + (4294967296 - 0xa282ead8))
  (x >>> 17) ||| u32 (x <<< 15)

/-- Shifting left by `k` then wrapping to 32 bits keeps the low `32 - k`
bits, moved up by `k` places. -/
theorem u32_shiftLeft_eq (x k : Nat) (hk : k ≤ 32) :
    u32 (x <<< k) = x % 2 ^ (32 - k) * 2 ^ k := by
  have h : (2 : Nat) ^ (32 - k) * 2 ^ k = 4294967296 := by
    rw [← pow_add]
    norm_num [Nat.sub_add_cancel hk]
  calc u32 (x <<< k) = (x * 2 ^ k) % (2 ^ (32 - k) * 2 ^ k) := by
        rw [Nat.shiftLeft_eq, u32, h]
    _ = x % 2 ^ (32 - k) * 2 ^ k := Nat.mul_mod_mul_right _ _ _

/-- A bitwise or of a high part (a multiple of `2 ^ k`) and a low part
(below `2 ^ k`) is their sum. -/
theorem lor_high_low (a b k : Nat) (hb : b < 2 ^ k) :
    b ||| a * 2 ^ k = 2 ^ k * a + b := by
  rw [Nat.lor_comm, Nat.mul_comm a (2 ^ k)]
  exact (Nat.mul_add_lt_is_or hb a).symm

theorem maskChecksum_eq (c : Nat) (hc : c < 2 ^ 32) :
    maskChecksum c = u32 (2 ^ 17 * (c % 2 ^ 15) + c / 2 ^ 15 + 0xa282ead8) := by
  have h1 : c >>> 15 = c / 2 ^ 15 := Nat.shiftRight_eq_div_pow c 15
  have h2 : u32 (c <<< 17) = c % 2 ^ 15 * 2 ^ 17 := by
    simpa using u32_shiftLeft_eq c 17 (by norm_num)
  have hlow : c / 2 ^ 15 < 2 ^ 17 := by
    have := Nat.div_lt_div_of_lt_of_dvd (by norm_num : (2:Nat) ^ 15 ∣ 2 ^ 32) hc
    simpa using this
  rw [maskChecksum, h1, h2, lor_high_low (c % 2 ^ 15) (c / 2 ^ 15) 17 hlow]

/-- Unmasking a value of the form `mask-rotation + constant` recovers the
inverse rotation of its 32-bit argument. -/
theorem unmask_u32_add (r : Nat) (hr : r < 2 ^ 32) :
    unmaskChecksum (u32 (r + 0xa282ead8)) = 2 ^ 15 * (r % 2 ^ 17) + r / 2 ^ 17 := by
  have hx : u32 (u32 (r + 0xa282ead8) + (4294967296 - 0xa282ead8)) = r := by
    simp only [u32]
    omega
  show (u32 (u32 (r + 0xa282ead8) + (4294967296 - 0xa282ead8)) >>> 17) |||
      u32 (u32 (u32 (r + 0xa282ead8) + (4294967296 - 0xa282ead8)) <<< 15)
      = 2 ^ 15 * (r % 2 ^ 17) + r / 2 ^ 17
  rw [hx, Nat.shiftRight_eq_div_pow, u32_shiftLeft_eq r 15 (by norm_num),
    lor_high_low (r % 2 ^ (32 - 15)) (r / 2 ^ 17) 15 (by omega)]

/-- Unmasking inverts masking on every 32-bit value. -/
theorem unmask_mask (c : Nat) (hc : c < 2 ^ 32) :
    unmaskChecksum (maskChecksum c) = c := by
  have hrlt : 2 ^ 17 * (c % 2 ^ 15) + c / 2 ^ 15 < 2 ^ 32 := by omega
  rw [maskChecksum_eq c hc, unmask_u32_add _ hrlt]
  omega

/-- External collaborators of the codec (spec section 1: the snappy block
compressor/decompressor and the CRC32-Castagnoli primitive are out of
scope and assumed available). `encode` and `decode` may fail; `decodedLen`
mirrors `snappy.DecodedLen`. -/
structure Codec where
  encode : List Nat → Option (List Nat)
  decodedLen : List Nat → Option Nat
  decode : List Nat → Option (List Nat)
  crc : List Nat → Nat

/-- Errors a writer call can surface (Go returns them as `error` values). -/
inductive WErr where
  | blockTooLarge
  | encodeFailed
  | sinkFailed
deriving DecidableEq, Repr

/-- Little-endian 3-byte encoding, as produced by `byte(length)`,
`byte(length >> 8)`, `byte(length >> 16)` in `writer.write`. -/
def le3 (n : Nat) : List Nat := [n % 256, n / 256 % 256, n / 65536 % 256]

/-- Little-endian 4-byte encoding of a checksum, as produced by
`byte(checksum)` through `byte(checksum >> 24)` in `writer.write`. -/
def le4 (n : Nat) : List Nat :=
  [n % 256, n / 256 % 256, n / 65536 % 256, n / 16777216 % 256]

/-- State of a frame writer (Go struct `writer`), generic in the sink state
`σ` of the wrapped `io.Writer`. `dst` is the reusable compressed-block
buffer. -/
structure WriterState (σ : Type) where
  sink : σ
  sentStreamID : Bool
  dst : List Nat

/-- Go `NewWriter`: fresh writer wrapping the given sink. -/
def NewWriter {σ : Type} (s : σ) : WriterState σ :=
  { sink := s, sentStreamID := false, dst := List.replicate 4096 0 }

/-- Go method `writer.write` (lower case): frame and emit a single block
`p`. `ws` is the wrapped sink's write operation (`none` models a write
error). Returns the `(int, error)` pair together with the updated writer
state. -/
def writeBlock {σ : Type} (ws : σ → List Nat → Option σ) (C : Codec)
    (w : WriterState σ) (p : List Nat) : (Nat × Option WErr) × WriterState σ :=
  if p.length > MaxBlockSize then ((0, some .blockTooLarge), w)
  else
    match C.encode p with
    | none => ((0, some .encodeFailed), w)
    | some ec =>
      let w1 : WriterState σ := { w with dst := ec }
      let step2 : Option (WriterState σ) :=
        if !w1.sentStreamID then
          match ws w1.sink streamID with
          | none => none
          | some s => some { w1 with sink := s, sentStreamID := true }
        else some w1
      match step2 with
      | none => ((0, some .sinkFailed), w1)
      | some w2 =>
        let length := u32 (ec.length + 4)
        let checksum := maskChecksum (C.crc p)
        let hdr : List Nat := blockCompressed :: (le3 length ++ le4 checksum)
        match ws w2.sink hdr with
        | none => ((0, some .sinkFailed), w2)
        | some s1 =>
          match ws s1 ec with
          | none => ((0, some .sinkFailed), { w2 with sink := s1 })
          | some s2 => ((p.length, none), { w2 with sink := s2 })

/-- The successive slices `p[i : i+sz]` taken by the chunking loop in Go
`writer.Write`: maximal pieces of `MaxBlockSize` bytes. -/
def chunksOf (p : List Nat) : List (List Nat) :=
  if h : p = [] then []
  else p.take MaxBlockSize :: chunksOf (p.drop MaxBlockSize)
termination_by p.length
decreasing_by
  simp only [List.length_drop]
  have : 0 < p.length := List.length_pos.mpr h
  simp only [MaxBlockSize]
  omega

/-- The chunk loop body of Go `writer.Write`: write each chunk in order,
abort with `(0, err)` on the first failure, accumulate the total. -/
def writeChunks {σ : Type} (ws : σ → List Nat → Option σ) (C : Codec)
    (w : WriterState σ) (cs : List (List Nat)) (total : Nat) :
    (Nat × Option WErr) × WriterState σ :=
  match cs with
  | [] => ((total, none), w)
  | c :: rest =>
    match writeBlock ws C w c with
    | ((n, none), w') => writeChunks ws C w' rest (total + n)
    | ((_, some e), w') => ((0, some e), w')

/-- Go method `writer.Write`: chunk the input at `MaxBlockSize` and write
one frame per chunk. -/
def writerWrite {σ : Type} (ws : σ → List Nat → Option σ) (C : Codec)
    (w : WriterState σ) (p : List Nat) : (Nat × Option WErr) × WriterState σ :=
  writeChunks ws C w (chunksOf p) 0

/-- A sink collecting written bytes and never failing (a `bytes.Buffer`). -/
def listSink (s : List Nat) (p : List Nat) : Option (List Nat) := some (s ++ p)

/-- Errors a reader call can surface. `eof` models `io.EOF` (clean end of
stream); `unexpectedEOF` models `io.ErrUnexpectedEOF` (short read
mid-frame, also produced by the `noeof` wrappers). `sliceRange` marks the
Go slice-bounds panic that `buf[4:]` raises when a data frame declares a
length below 4. `loopLimit` is the fuel guard of the embedded frame loop,
unreachable for the fuel supplied by `nextFrame`. -/
inductive RErr where
  | eof
  | unexpectedEOF
  | missingStreamID
  | invalidStreamIDLength
  | invalidStreamIDBlock
  | unskippableFrame (t : Nat)
  | encBlockTooLarge (l : Nat)
  | decodedTooLarge (n : Nat)
  | decodedLenFailed
  | decodeFailed
  | checksumMismatch
  | sliceRange
  | loopLimit
deriving DecidableEq, Repr

/-- State of a frame reader (Go struct `reader` in the canonical revision).
The wrapped `io.Reader` is modelled by `source`, the bytes it has yet to
deliver. `srcLen` and `dstLen` are the lengths of the reusable working
buffers `r.src` and `r.dst`; `buf` is the pending decompressed bytes. -/
structure ReaderState where
  source : List Nat
  err : Option RErr
  seenStreamID : Bool
  verifyChecksum : Bool
  buf : List Nat
  hdr : List Nat
  srcLen : Nat
  dstLen : Nat
deriving Repr

/-- Go `NewReader`: fresh reader over a source with the given checksum
verification setting. -/
def NewReader (source : List Nat) (verifyChecksum : Bool) : ReaderState :=
  { source := source, err := none, seenStreamID := false,
    verifyChecksum := verifyChecksum, buf := [],
    hdr := List.replicate 4 0, srcLen := 4096, dstLen := 4096 }

/-- Go `decodeLength`: 24-bit little-endian length from the 3 bytes after
the type byte. -/
def decodeLength (b : List Nat) : Nat :=
  b.getD 0 0 ||| b.getD 1 0 <<< 8 ||| b.getD 2 0 <<< 16

/-- Little-endian 32-bit decoding of the 4 checksum bytes, as in
`uint32(buf[0]) | uint32(buf[1])<<8 | uint32(buf[2])<<16 | uint32(buf[3])<<24`. -/
def le32of (b : List Nat) : Nat :=
  b.getD 0 0 ||| b.getD 1 0 <<< 8 ||| b.getD 2 0 <<< 16 ||| b.getD 3 0 <<< 24

/-- Go `reader.readBlock`: bound-check the declared length, grow the `src`
working buffer if needed, then read the payload in full (`noeof` promotes
`io.EOF` to `io.ErrUnexpectedEOF`). -/
def readBlock (st : ReaderState) : Except RErr (List Nat) × ReaderState :=
  let length := decodeLength (st.hdr.drop 1)
  if length > maxEncodedBlockSize + 4 then
    (.error (.encBlockTooLarge length), st)
  else
    let st1 := if length > st.srcLen then { st with srcLen := length } else st
    if st1.source.length < length then
      (.error .unexpectedEOF, { st1 with source := [] })
    else
      (.ok (st1.source.take length), { st1 with source := st1.source.drop length })

/-- Go `reader.readStreamID`: validate the fixed header, read the 6-byte
identifier payload, validate it. -/
def readStreamID (st : ReaderState) : Option RErr × ReaderState :=
  if st.hdr ≠ streamID.take 4 then (some .invalidStreamIDLength, st)
  else if st.source.length < 6 then (some .unexpectedEOF, { st with source := [] })
  else if st.source.take 6 ≠ streamID.drop 4 then
    (some .invalidStreamIDBlock, { st with source := st.source.drop 6 })
  else (none, { st with source := st.source.drop 6 })

/-- Go `reader.discardBlock`: read and discard exactly the declared-length
payload (`io.CopyN` to `ioutil.Discard`, `noeof64` on short source). -/
def discardBlock (st : ReaderState) : Option RErr × ReaderState :=
  let length := decodeLength (st.hdr.drop 1)
  if st.source.length < length then (some .unexpectedEOF, { st with source := [] })
  else (none, { st with source := st.source.drop length })

/-- Go `reader.decodeBlock`: read the block payload, split off the 4-byte
checksum, decompress if the frame is compressed, optionally verify the
checksum, and append the resulting bytes to the pending buffer. -/
def decodeBlock (C : Codec) (st : ReaderState) : Option RErr × ReaderState :=
  match readBlock st with
  | (.error e, st') => (some e, st')
  | (.ok buf, st') =>
    if buf.length < 4 then (some .sliceRange, st')
    else
      let declenE : Option Nat :=
        if st'.hdr.getD 0 0 = blockCompressed then C.decodedLen (buf.drop 4)
        else some (buf.drop 4).length
      match declenE with
      | none => (some .decodedLenFailed, st')
      | some declen =>
        if declen > MaxBlockSize then (some (.decodedTooLarge declen), st')
        else
          let crc32le := buf.take 4
          let finish : ReaderState → List Nat → Option RErr × ReaderState :=
            fun st'' blockdata =>
              if st''.verifyChecksum then
                let checksum := unmaskChecksum (le32of crc32le)
                let actualChecksum := C.crc blockdata
                if checksum ≠ actualChecksum then (some .checksumMismatch, st'')
                else (none, { st'' with buf := st''.buf ++ blockdata })
              else (none, { st'' with buf := st''.buf ++ blockdata })
          if st'.hdr.getD 0 0 = blockCompressed then
            match C.decode (buf.drop 4) with
            | none => (some .decodeFailed, st')
            | some data => finish { st' with dstLen := data.length } data
          else finish st' (buf.drop 4)

/-- The frame loop of Go `reader.nextFrame`. Each iteration reads a 4-byte
header and dispatches on the type byte; stream-identifier and skippable
frames continue the loop. The fuel bound only guards the recursion and is
never exhausted when at least `source.length + 1` is supplied, because
every continuing iteration consumes at least 4 source bytes. -/
def nextFrameLoop (C : Codec) : Nat → ReaderState → Option RErr × ReaderState
  | 0, st => (some .loopLimit, st)
  | fuel + 1, st =>
    if st.source.length < 4 then
      if st.source.isEmpty then (some .eof, st)
      else (some .unexpectedEOF, { st with source := [] })
    else
      let st1 := { st with hdr := st.source.take 4, source := st.source.drop 4 }
      let t := st1.hdr.getD 0 0
      if t = blockStreamIdentifier then
        match readStreamID st1 with
        | (some e, st2) => (some e, st2)
        | (none, st2) => nextFrameLoop C fuel { st2 with seenStreamID := true }
      else if !st1.seenStreamID then (some .missingStreamID, st1)
      else if t = blockCompressed ∨ t = blockUncompressed then decodeBlock C st1
      else if t = blockPadding ∨ (0x80 ≤ t ∧ t ≤ 0xfd) then
        match discardBlock st1 with
        | (some e, st2) => (some e, st2)
        | (none, st2) => nextFrameLoop C fuel st2
      else
        match discardBlock st1 with
        | (some e, st2) => (some e, st2)
        | (none, st2) => (some (.unskippableFrame t), st2)

/-- Go `reader.nextFrame`, with fuel ample enough that the loop guard is
unreachable. -/
def nextFrame (C : Codec) (st : ReaderState) : Option RErr × ReaderState :=
  nextFrameLoop C (st.source.length + 1) st

/-- Go helper `reader.read`: drain up to `n` pending bytes through
`bytes.Buffer.Read`, recording the buffer's error (`io.EOF` exactly when
the buffer is empty and the caller asked for at least one byte) in `r.err`. -/
def bufferRead (st : ReaderState) (n : Nat) : (List Nat × Option RErr) × ReaderState :=
  if st.buf.isEmpty ∧ n ≠ 0 then
    (([], some .eof), { st with err := some .eof })
  else
    ((st.buf.take n, none), { st with buf := st.buf.drop n, err := none })

/-- Go `reader.Read` for a caller buffer of length `n`: sticky error check,
decode the next frame when fewer than `n` bytes are pending, then drain
from the pending buffer. -/
def readerRead (C : Codec) (st : ReaderState) (n : Nat) :
    (List Nat × Option RErr) × ReaderState :=
  match st.err with
  | some e => (([], some e), st)
  | none =>
    if st.buf.length < n then
      match nextFrame C st with
      | (some .eof, st1) => bufferRead { st1 with err := some .eof } n
      | (some e, st1) => (([], some e), { st1 with err := some e })
      | (none, st1) => bufferRead { st1 with err := none } n
    else bufferRead st n

/-- Drain a reader like `ioutil.ReadAll` in `testWriteThenRead`: decode
frames until a clean end of stream, then return everything decoded; any
other error is surfaced. `fuel` bounds the number of frames. -/
def readAllFrames (C : Codec) : Nat → ReaderState → Except RErr (List Nat)
  | 0, _ => .error .loopLimit
  | fuel + 1, st =>
    match nextFrame C st with
    | (none, st') => readAllFrames C fuel st'
    | (some .eof, st') => .ok st'.buf
    | (some e, _) => .error e

/-- The mask always produces a 32-bit value. -/
theorem maskChecksum_lt (c : Nat) : maskChecksum c < 2 ^ 32 := by
  have : maskChecksum c < 4294967296 := Nat.mod_lt _ (by norm_num)
  simpa using this

/-- Decoding the four little-endian bytes of a 32-bit value recovers it. -/
theorem le32of_le4 (n : Nat) (hn : n < 2 ^ 32) : le32of (le4 n) = n := by
  simp only [le32of, le4, List.getD_cons_zero, List.getD_cons_succ, Nat.shiftLeft_eq]
  rw [lor_high_low (n / 256 % 256) (n % 256) 8 (by omega),
    lor_high_low (n / 65536 % 256) (2 ^ 8 * (n / 256 % 256) + n % 256) 16 (by omega),
    lor_high_low (n / 16777216 % 256)
      (2 ^ 16 * (n / 65536 % 256) + (2 ^ 8 * (n / 256 % 256) + n % 256)) 24 (by omega)]
  omega

/-- Decoding the three little-endian bytes of a 24-bit value recovers it. -/
theorem decodeLength_le3 (n : Nat) (hn : n < 2 ^ 24) : decodeLength (le3 n) = n := by
  simp only [decodeLength, le3, List.getD_cons_zero, List.getD_cons_succ, Nat.shiftLeft_eq]
  rw [lor_high_low (n / 256 % 256) (n % 256) 8 (by omega),
    lor_high_low (n / 65536 % 256) (2 ^ 8 * (n / 256 % 256) + n % 256) 16 (by omega)]
  omega

theorem chunksOf_nil : chunksOf [] = [] := by
  simp [chunksOf]

theorem chunksOf_cons (p : List Nat) (h : p ≠ []) :
    chunksOf p = p.take MaxBlockSize :: chunksOf (p.drop MaxBlockSize) := by
  rw [chunksOf]
  simp [h]

/-- Every chunk produced by the chunking loop is at most one block. -/
theorem chunksOf_length_le (p : List Nat) :
    ∀ c ∈ chunksOf p, c.length ≤ MaxBlockSize := by
  by_cases h : p = []
  · simp [h, chunksOf_nil]
  · rw [chunksOf_cons p h]
    intro c hc
    rcases List.mem_cons.mp hc with rfl | hmem
    · simpa using Nat.le_of_eq_of_le (List.length_take _ _) (Nat.min_le_left _ _)
    · exact chunksOf_length_le (p.drop MaxBlockSize) c hmem
termination_by p.length
decreasing_by
  simp only [List.length_drop]
  have : 0 < p.length := List.length_pos.mpr h
  simp only [MaxBlockSize]
  omega

/-- The chunks concatenate back to the input. -/
theorem chunksOf_flatten (p : List Nat) : (chunksOf p).flatten = p := by
  by_cases h : p = []
  · simp [h, chunksOf_nil]
  · rw [chunksOf_cons p h]
    simp only [List.flatten_cons, chunksOf_flatten (p.drop MaxBlockSize)]
    exact List.take_append_drop _ _
termination_by p.length
decreasing_by
  simp only [List.length_drop]
  have : 0 < p.length := List.length_pos.mpr h
  simp only [MaxBlockSize]
  omega

/-- The wire frame the writer emits for a chunk `c` whose compressed form
is `E c`: compressed tag, 3-byte length, 4-byte masked checksum, payload. -/
def frameBytes (C : Codec) (E : List Nat → List Nat) (c : List Nat) : List Nat :=
  (blockCompressed :: (le3 ((E c).length + 4) ++ le4 (maskChecksum (C.crc c)))) ++ E c

/-- Behaviour of a successful single-block write into a buffer sink. -/
theorem writeBlock_listSink (C : Codec) (w : WriterState (List Nat)) (c ec : List Nat)
    (henc : C.encode c = some ec) (hlen : c.length ≤ MaxBlockSize) :
    writeBlock listSink C w c =
      ((c.length, none),
        { sink := (w.sink ++ (if w.sentStreamID then [] else streamID)) ++
            ((blockCompressed :: (le3 (u32 (ec.length + 4)) ++ le4 (maskChecksum (C.crc c)))) ++ ec),
          sentStreamID := true, dst := ec }) := by
  unfold writeBlock
  rw [if_neg (by omega), henc]
  cases hsid : w.sentStreamID <;>
    simp [listSink, hsid, List.append_assoc]

/-- Behaviour of the chunk loop over a buffer sink once the stream
identifier has been sent: one frame per chunk, emitted in order. -/
theorem writeChunks_listSink (C : Codec) (E : List Nat → List Nat)
    (hE : ∀ c, C.encode c = some (E c))
    (hEB : ∀ c, c.length ≤ MaxBlockSize → (E c).length ≤ maxEncodedBlockSize) :
    ∀ (cs : List (List Nat)) (w : WriterState (List Nat)) (total : Nat),
      w.sentStreamID = true →
      (∀ c ∈ cs, c.length ≤ MaxBlockSize) →
      (writeChunks listSink C w cs total).1 = (total + (cs.map List.length).sum, none) ∧
      (writeChunks listSink C w cs total).2.sink
          = w.sink ++ (cs.map (frameBytes C E)).flatten ∧
      (writeChunks listSink C w cs total).2.sentStreamID = true := by
  intro cs
  induction cs with
  | nil => intro w total hsid _; simp [writeChunks, hsid]
  | cons c rest ih =>
    intro w total hsid hlen
    have hc : c.length ≤ MaxBlockSize := hlen c (List.mem_cons_self _ _)
    have hu : u32 ((E c).length + 4) = (E c).length + 4 := by
      have := hEB c hc
      simp only [u32, maxEncodedBlockSize, MaxBlockSize] at *
      omega
    have hblock := writeBlock_listSink C w c (E c) (hE c) hc
    rw [hsid] at hblock
    simp only [if_true, List.append_nil] at hblock
    simp only [writeChunks, hblock]
    obtain ⟨h1, h2, h3⟩ := ih (WriterState.mk (w.sink ++ ((blockCompressed :: (le3 (u32 ((E c).length + 4)) ++ le4 (maskChecksum (C.crc c)))) ++ E c)) true (E c)) (total + c.length) rfl (fun d hd => hlen d (List.mem_cons_of_mem _ hd))
    refine ⟨?_, ?_, h3⟩
    · rw [h1]
      simp [Nat.add_assoc]
    · rw [h2]
      simp only [List.map_cons, List.flatten_cons, frameBytes, hu]
      simp [List.append_assoc]

theorem u32_len_eq (n : Nat) (hn : n ≤ maxEncodedBlockSize) : u32 (n + 4) = n + 4 := by
  simp only [u32, maxEncodedBlockSize] at *
  omega

/-- Behaviour of a whole `Write` call on a fresh-identifier writer over a
buffer sink: the stream identifier followed by one frame per chunk. -/
theorem writerWrite_listSink (C : Codec) (E : List Nat → List Nat)
    (hE : ∀ c, C.encode c = some (E c))
    (hEB : ∀ c, c.length ≤ MaxBlockSize → (E c).length ≤ maxEncodedBlockSize)
    (w : WriterState (List Nat)) (p : List Nat)
    (hw : w.sentStreamID = false) (hp : p ≠ []) :
    (writerWrite listSink C w p).1 = (p.length, none) ∧
    (writerWrite listSink C w p).2.sink
        = w.sink ++ streamID ++ ((chunksOf p).map (frameBytes C E)).flatten ∧
    (writerWrite listSink C w p).2.sentStreamID = true := by
  have hcs := chunksOf_cons p hp
  have hlenall := chunksOf_length_le p
  have hc1 : (p.take MaxBlockSize).length ≤ MaxBlockSize := by
    simpa using Nat.le_of_eq_of_le (List.length_take _ _) (Nat.min_le_left _ _)
  have hblock := writeBlock_listSink C w (p.take MaxBlockSize) (E (p.take MaxBlockSize))
    (hE _) hc1
  rw [hw] at hblock
  simp only [Bool.false_eq_true, if_false] at hblock
  unfold writerWrite
  rw [hcs]
  simp only [writeChunks, hblock]
  obtain ⟨h1, h2, h3⟩ := writeChunks_listSink C E hE hEB (chunksOf (p.drop MaxBlockSize)) (WriterState.mk ((w.sink ++ streamID) ++ ((blockCompressed :: (le3 (u32 ((E (p.take MaxBlockSize)).length + 4)) ++ le4 (maskChecksum (C.crc (p.take MaxBlockSize))))) ++ E (p.take MaxBlockSize))) true (E (p.take MaxBlockSize))) (0 + (p.take MaxBlockSize).length) rfl (fun d hd => hlenall d (hcs ▸ List.mem_cons_of_mem _ hd))
  refine ⟨?_, ?_, h3⟩
  · rw [h1]
    have hplen : p.length = ((chunksOf p).map List.length).sum := by
      conv_lhs => rw [← chunksOf_flatten p]
      rw [List.length_flatten]
    rw [hplen, hcs]
    simp [Nat.add_assoc]
  · rw [h2]
    simp only [List.map_cons, List.flatten_cons, frameBytes, u32_len_eq _ (hEB _ hc1)]
    simp [List.append_assoc]

/-- Behaviour of `readBlock` when the declared length is within bounds and
the source holds the whole payload. -/
theorem readBlock_ok (st : ReaderState) (payload rest : List Nat)
    (hL : decodeLength (st.hdr.drop 1) = payload.length)
    (hbound : payload.length ≤ maxEncodedBlockSize + 4)
    (hsrc : st.source = payload ++ rest) :
    readBlock st = (.ok payload,
      { st with
        source := rest,
        srcLen := (if payload.length > st.srcLen then payload.length else st.srcLen) }) := by
  have hL' : decodeLength st.hdr.tail = payload.length := by
    rw [← List.drop_one]
    exact hL
  have hnb : ¬ (maxEncodedBlockSize + 4 < payload.length) := by omega
  have hlen : ¬ ((payload ++ rest).length < payload.length) := by
    simp [List.length_append]
  by_cases hgrow : st.srcLen < payload.length <;>
    simp [readBlock, hL', hsrc, hnb, hgrow, hlen, List.take_left', List.drop_left']

/-- Behaviour of `decodeBlock` on a well-formed data frame: the payload is
consumed, the checksum is compared exactly when verification is enabled,
and on success the decompressed bytes are appended to the pending buffer. -/
theorem decodeBlock_spec (C : Codec) (st : ReaderState) (t b1 b2 b3 declen : Nat)
    (payload rest data : List Nat)
    (hhdr : st.hdr = [t, b1, b2, b3])
    (hL : decodeLength [b1, b2, b3] = payload.length)
    (hbound : payload.length ≤ maxEncodedBlockSize + 4)
    (h4 : 4 ≤ payload.length)
    (hsrc : st.source = payload ++ rest)
    (ht : t = blockCompressed ∨ t = blockUncompressed)
    (hcomp : t = blockCompressed →
      C.decodedLen (payload.drop 4) = some declen ∧ C.decode (payload.drop 4) = some data)
    (huncomp : t = blockUncompressed → declen = payload.length - 4 ∧ data = payload.drop 4)
    (hdeclen : declen ≤ MaxBlockSize) :
    (decodeBlock C st).1
        = (if st.verifyChecksum = true ∧
              unmaskChecksum (le32of (payload.take 4)) ≠ C.crc data
           then some .checksumMismatch else none) ∧
    (decodeBlock C st).2.buf
        = (if st.verifyChecksum = true ∧
              unmaskChecksum (le32of (payload.take 4)) ≠ C.crc data
           then st.buf else st.buf ++ data) ∧
    (decodeBlock C st).2.source = rest ∧
    (decodeBlock C st).2.seenStreamID = st.seenStreamID ∧
    (decodeBlock C st).2.verifyChecksum = st.verifyChecksum ∧
    (decodeBlock C st).2.err = st.err := by
  have hrb := readBlock_ok st payload rest (by rw [hhdr]; exact hL) hbound hsrc
  have h4' : ¬ (payload.length < 4) := by omega
  rcases ht with ht | ht
  · obtain ⟨hdl, hdec⟩ := hcomp ht
    subst ht
    by_cases hv : st.verifyChecksum = true <;>
      by_cases hck : unmaskChecksum (le32of (payload.take 4)) = C.crc data <;>
        simp [decodeBlock, hrb, h4', hhdr, hdl, hdec, hdeclen, hv, hck,
          Nat.not_lt.mpr hdeclen]
  · obtain ⟨hd1, hd2⟩ := huncomp ht
    subst ht
    subst hd2
    have hne : blockUncompressed ≠ blockCompressed := by decide
    have hdrop : (payload.drop 4).length = declen := by
      simp [List.length_drop, hd1]
    by_cases hv : st.verifyChecksum = true <;>
      by_cases hck : unmaskChecksum (le32of (payload.take 4)) = C.crc (payload.drop 4) <;>
        simp [decodeBlock, hrb, h4', hhdr, hne, hdrop, hdeclen, hv, hck,
          Nat.not_lt.mpr hdeclen]

/-- An exhausted source yields a clean end-of-stream at a frame boundary. -/
theorem nextFrameLoop_eof (C : Codec) (fuel : Nat) (st : ReaderState)
    (hsrc : st.source = []) :
    nextFrameLoop C (fuel + 1) st = (some .eof, st) := by
  simp [nextFrameLoop, hsrc]

/-- A leading stream identifier is consumed and validated, and the loop
continues on the remaining source with the identifier marked as seen. -/
theorem nextFrameLoop_streamID (C : Codec) (fuel : Nat) (st : ReaderState)
    (rest : List Nat) (hsrc : st.source = streamID ++ rest) :
    nextFrameLoop C (fuel + 1) st
      = nextFrameLoop C fuel
          { st with seenStreamID := true, source := rest, hdr := streamID.take 4 } := by
  have hc1 : ¬ (rest.length + 1 + 1 + 1 + 1 + 1 + 1 + 1 + 1 + 1 + 1 < 4) := by omega
  have hc2 : ¬ (rest.length + 1 + 1 + 1 + 1 + 1 + 1 < 6) := by omega
  simp [nextFrameLoop, hsrc, streamID, readStreamID, blockStreamIdentifier,
    List.take_succ_cons, List.drop_succ_cons, hc1, hc2]

/-- Dispatch of the frame loop on a data frame: the header is consumed and
the block is decoded by `decodeBlock`. -/
theorem nextFrameLoop_data (C : Codec) (fuel : Nat) (st : ReaderState)
    (t b1 b2 b3 : Nat) (tl : List Nat)
    (hseen : st.seenStreamID = true)
    (ht : t = blockCompressed ∨ t = blockUncompressed)
    (hsrc : st.source = t :: b1 :: b2 :: b3 :: tl) :
    nextFrameLoop C (fuel + 1) st
      = decodeBlock C { st with hdr := [t, b1, b2, b3], source := tl } := by
  have hne : t ≠ blockStreamIdentifier := by
    rcases ht with rfl | rfl <;> decide
  rcases ht with rfl | rfl <;>
    simp [nextFrameLoop, hsrc, hseen, hne, blockCompressed, blockUncompressed,
      blockStreamIdentifier]

/-- Decoding one writer-produced frame succeeds and appends exactly the
original chunk to the pending buffer. -/
theorem nextFrameLoop_frameBytes (C : Codec) (E : List Nat → List Nat) (fuel : Nat)
    (st : ReaderState) (c rest : List Nat)
    (hseen : st.seenStreamID = true)
    (hsrc : st.source = frameBytes C E c ++ rest)
    (hEB : (E c).length ≤ maxEncodedBlockSize)
    (hdl : C.decodedLen (E c) = some c.length)
    (hdec : C.decode (E c) = some c)
    (hclen : c.length ≤ MaxBlockSize)
    (hcrc : C.crc c < 2 ^ 32) :
    (nextFrameLoop C (fuel + 1) st).1 = none ∧
    (nextFrameLoop C (fuel + 1) st).2.buf = st.buf ++ c ∧
    (nextFrameLoop C (fuel + 1) st).2.source = rest ∧
    (nextFrameLoop C (fuel + 1) st).2.seenStreamID = true ∧
    (nextFrameLoop C (fuel + 1) st).2.verifyChecksum = st.verifyChecksum ∧
    (nextFrameLoop C (fuel + 1) st).2.err = st.err := by
  have hsrc' : st.source = blockCompressed :: (((E c).length + 4) % 256) ::
      (((E c).length + 4) / 256 % 256) :: (((E c).length + 4) / 65536 % 256) ::
      ((le4 (maskChecksum (C.crc c)) ++ E c) ++ rest) := by
    simp [hsrc, frameBytes, le3, List.append_assoc]
  rw [nextFrameLoop_data C fuel st _ _ _ _ _ hseen (Or.inl rfl) hsrc']
  have hlen4 : (le4 (maskChecksum (C.crc c))).length = 4 := by simp [le4]
  have hpay : ((le4 (maskChecksum (C.crc c)) ++ E c)).length = (E c).length + 4 := by
    simp [hlen4, Nat.add_comm]
  obtain ⟨g1, g2, g3, g4, g5, g6⟩ :=
    decodeBlock_spec C
      { st with
        hdr := [blockCompressed, ((E c).length + 4) % 256,
          ((E c).length + 4) / 256 % 256, ((E c).length + 4) / 65536 % 256],
        source := (le4 (maskChecksum (C.crc c)) ++ E c) ++ rest }
      blockCompressed (((E c).length + 4) % 256) (((E c).length + 4) / 256 % 256)
      (((E c).length + 4) / 65536 % 256) c.length
      (le4 (maskChecksum (C.crc c)) ++ E c) rest c
      rfl
      (by
        rw [hpay]
        exact decodeLength_le3 _ (by simp only [maxEncodedBlockSize] at hEB; omega))
      (by rw [hpay]; simp only [maxEncodedBlockSize] at *; omega)
      (by rw [hpay]; omega)
      rfl
      (Or.inl rfl)
      (by
        intro _
        rw [List.drop_left' hlen4]
        exact ⟨hdl, hdec⟩)
      (by intro hct; exact absurd hct (by decide))
      hclen
  have htake : (le4 (maskChecksum (C.crc c)) ++ E c).take 4 = le4 (maskChecksum (C.crc c)) :=
    List.take_left' hlen4
  have hcond : ¬ ((ReaderState.verifyChecksum { st with
        hdr := [blockCompressed, ((E c).length + 4) % 256,
          ((E c).length + 4) / 256 % 256, ((E c).length + 4) / 65536 % 256],
        source := (le4 (maskChecksum (C.crc c)) ++ E c) ++ rest }) = true ∧
      unmaskChecksum (le32of ((le4 (maskChecksum (C.crc c)) ++ E c).take 4))
        ≠ C.crc c) := by
    rw [htake, le32of_le4 _ (maskChecksum_lt _), unmask_mask _ hcrc]
    simp
  rw [if_neg hcond] at g1 g2
  exact ⟨g1, g2, g3, g4.trans hseen, g5, g6⟩

/-- One successful frame step of the drain loop. -/
theorem readAllFrames_step (C : Codec) (fuel : Nat) (st st' : ReaderState)
    (h : nextFrame C st = (none, st')) :
    readAllFrames C (fuel + 1) st = readAllFrames C fuel st' := by
  simp only [readAllFrames, h]

/-- The drain loop ends cleanly at end of stream. -/
theorem readAllFrames_step_eof (C : Codec) (fuel : Nat) (st st' : ReaderState)
    (h : nextFrame C st = (some .eof, st')) :
    readAllFrames C (fuel + 1) st = .ok st'.buf := by
  simp only [readAllFrames, h]

/-- Draining a reader positioned at a sequence of writer-produced frames
returns all the chunks in order. -/
theorem readAllFrames_chunks (C : Codec) (E : List Nat → List Nat)
    (hdl : ∀ c, C.decodedLen (E c) = some c.length)
    (hdec : ∀ c, C.decode (E c) = some c)
    (hcrc : ∀ l, C.crc l < 2 ^ 32) :
    ∀ (cs : List (List Nat)) (st : ReaderState),
      st.seenStreamID = true →
      (∀ c ∈ cs, c.length ≤ MaxBlockSize ∧ (E c).length ≤ maxEncodedBlockSize) →
      st.source = (cs.map (frameBytes C E)).flatten →
      readAllFrames C (cs.length + 1) st = .ok (st.buf ++ cs.flatten) := by
  intro cs
  induction cs with
  | nil =>
    intro st hseen _ hsrc
    simp only [List.map_nil, List.flatten_nil] at hsrc
    have hnf : nextFrame C st = (some .eof, st) := nextFrameLoop_eof C st.source.length st hsrc
    rw [List.length_nil, readAllFrames_step_eof C 0 st st hnf]
    simp
  | cons c rest ih =>
    intro st hseen hb hsrc
    simp only [List.map_cons, List.flatten_cons] at hsrc
    obtain ⟨g1, g2, g3, g4, g5, g6⟩ :=
      nextFrameLoop_frameBytes C E st.source.length st c ((rest.map (frameBytes C E)).flatten)
        hseen hsrc (hb c (List.mem_cons_self _ _)).2 (hdl c) (hdec c)
        (hb c (List.mem_cons_self _ _)).1 (hcrc c)
    have g1' : (nextFrame C st).1 = none := g1
    have hpair : nextFrame C st = (none, (nextFrame C st).2) := Prod.ext g1' rfl
    rw [List.length_cons, readAllFrames_step C (rest.length + 1) st _ hpair]
    rw [ih ((nextFrame C st).2) g4 (fun d hd => hb d (List.mem_cons_of_mem _ hd)) g3]
    have g2' : (nextFrame C st).2.buf = st.buf ++ c := g2
    rw [g2']
    simp [List.append_assoc]

/-- Draining a reader whose source is a full framed stream (identifier
followed by writer-produced frames) returns all the chunks. -/
theorem readAllFrames_stream (C : Codec) (E : List Nat → List Nat)
    (hdl : ∀ c, C.decodedLen (E c) = some c.length)
    (hdec : ∀ c, C.decode (E c) = some c)
    (hcrc : ∀ l, C.crc l < 2 ^ 32)
    (cs : List (List Nat)) (st : ReaderState)
    (hb : ∀ c ∈ cs, c.length ≤ MaxBlockSize ∧ (E c).length ≤ maxEncodedBlockSize)
    (hsrc : st.source = streamID ++ (cs.map (frameBytes C E)).flatten) :
    readAllFrames C (cs.length + 1) st = .ok (st.buf ++ cs.flatten) := by
  cases cs with
  | nil =>
    simp only [List.map_nil, List.flatten_nil, List.append_nil] at hsrc
    have hsid := nextFrameLoop_streamID C st.source.length st [] (by rw [hsrc]; simp)
    have hlen10 : st.source.length = 9 + 1 := by rw [hsrc]; rfl
    rw [hlen10] at hsid
    have heof := nextFrameLoop_eof C 8
      { st with seenStreamID := true, source := [], hdr := streamID.take 4 } rfl
    have hnf : nextFrame C st = (some .eof,
        { st with seenStreamID := true, source := [], hdr := streamID.take 4 }) := by
      rw [nextFrame, hlen10]
      rw [show (9 + 1) + 1 = (9 + 1) + 1 from rfl]
      calc nextFrameLoop C ((9 + 1) + 1) st
          = nextFrameLoop C (9 + 1) { st with seenStreamID := true, source := [], hdr := streamID.take 4 } :=
            nextFrameLoop_streamID C (9 + 1) st [] (by rw [hsrc]; simp)
        _ = (some .eof, { st with seenStreamID := true, source := [], hdr := streamID.take 4 }) :=
            nextFrameLoop_eof C 9 _ rfl
    rw [List.length_nil, readAllFrames_step_eof C 0 st _ hnf]
    simp
  | cons c1 rest =>
    simp only [List.map_cons, List.flatten_cons] at hsrc
    have hflow : st.source.length
        = (9 + (frameBytes C E c1 ++ (rest.map (frameBytes C E)).flatten).length) + 1 := by
      rw [hsrc]
      simp only [List.length_append, streamID, List.length_cons, List.length_nil]
      omega
    obtain ⟨g1, g2, g3, g4, g5, g6⟩ :=
      nextFrameLoop_frameBytes C E (9 + (frameBytes C E c1 ++ (rest.map (frameBytes C E)).flatten).length)
        { st with
          seenStreamID := true,
          source := frameBytes C E c1 ++ (rest.map (frameBytes C E)).flatten,
          hdr := streamID.take 4 }
        c1 ((rest.map (frameBytes C E)).flatten)
        rfl rfl (hb c1 (List.mem_cons_self _ _)).2 (hdl c1) (hdec c1)
        (hb c1 (List.mem_cons_self _ _)).1 (hcrc c1)
    have hnf : nextFrame C st
        = nextFrameLoop C ((9 + (frameBytes C E c1 ++ (rest.map (frameBytes C E)).flatten).length) + 1)
            { st with
              seenStreamID := true,
              source := frameBytes C E c1 ++ (rest.map (frameBytes C E)).flatten,
              hdr := streamID.take 4 } := by
      rw [nextFrame, hflow]
      exact nextFrameLoop_streamID C _ st _ hsrc
    have g1' : (nextFrame C st).1 = none := by rw [hnf]; exact g1
    have hpair : nextFrame C st = (none, (nextFrame C st).2) := Prod.ext g1' rfl
    rw [List.length_cons, readAllFrames_step C (rest.length + 1) st _ hpair]
    have g3' : (nextFrame C st).2.source = (rest.map (frameBytes C E)).flatten := by
      rw [hnf]; exact g3
    have g4' : (nextFrame C st).2.seenStreamID = true := by rw [hnf]; exact g4
    rw [readAllFrames_chunks C E hdl hdec hcrc rest ((nextFrame C st).2) g4'
      (fun d hd => hb d (List.mem_cons_of_mem _ hd)) g3']
    have g2' : (nextFrame C st).2.buf = st.buf ++ c1 := by rw [hnf]; exact g2
    rw [g2']
    simp [List.append_assoc]

/-- A concrete codec satisfying the collaborator contract: the identity
compressor with a summing checksum. Used to instantiate theorems on
concrete inputs. -/
def idCodec : Codec :=
  { encode := fun p => some p,
    decodedLen := fun p => some p.length,
    decode := fun p => some p,
    crc := fun p => u32 p.sum }

/-- C1: writing any byte sequence through the frame writer and reading the
resulting byte stream back through the frame reader yields exactly the
original sequence, for every codec satisfying the compressor contract
(encoding always succeeds, encoded blocks respect the encoded-size ceiling,
decoding inverts encoding, and the checksum is a 32-bit value). This covers
the empty sequence (no bytes are emitted and none are read back), inputs
below one block, at the block boundary, and spanning many blocks. -/
theorem roundtrip_writer_reader (C : Codec) (E : List Nat → List Nat)
    (hE : ∀ c, C.encode c = some (E c))
    (hEB : ∀ c, c.length ≤ MaxBlockSize → (E c).length ≤ maxEncodedBlockSize)
    (hdl : ∀ c, C.decodedLen (E c) = some c.length)
    (hdec : ∀ c, C.decode (E c) = some c)
    (hcrc : ∀ l, C.crc l < 2 ^ 32)
    (b : List Nat) :
    readAllFrames C ((chunksOf b).length + 1)
      (NewReader ((writerWrite listSink C (NewWriter []) b).2.sink) true) = .ok b := by
  by_cases hb : b = []
  · subst hb
    have hw : (writerWrite listSink C (NewWriter ([] : List Nat)) []).2.sink = [] := by
      unfold writerWrite
      rw [chunksOf_nil]
      rfl
    rw [hw, chunksOf_nil]
    have hnf : nextFrame C (NewReader [] true) = (some .eof, NewReader [] true) :=
      nextFrameLoop_eof C 0 _ rfl
    rw [List.length_nil, readAllFrames_step_eof C 0 _ _ hnf]
    rfl
  · obtain ⟨h1, h2, h3⟩ := writerWrite_listSink C E hE hEB (NewWriter []) b rfl hb
    rw [h2]
    rw [readAllFrames_stream C E hdl hdec hcrc (chunksOf b)
      (NewReader ((NewWriter ([] : List Nat)).sink ++ streamID
        ++ ((chunksOf b).map (frameBytes C E)).flatten) true)
      (fun c hc => ⟨chunksOf_length_le b c hc, hEB c (chunksOf_length_le b c hc)⟩)
      rfl]
    rw [show (NewReader ((NewWriter ([] : List Nat)).sink ++ streamID
      ++ ((chunksOf b).map (frameBytes C E)).flatten) true).buf = ([] : List Nat) from rfl]
    rw [List.nil_append, chunksOf_flatten]

/-- Witness for C1: the identity codec satisfies every hypothesis, and a
concrete four-byte input round-trips. -/
theorem roundtrip_writer_reader_witness :
    (∀ c : List Nat, idCodec.encode c = some c) ∧
    (∀ c : List Nat, c.length ≤ MaxBlockSize → c.length ≤ maxEncodedBlockSize) ∧
    (∀ c : List Nat, idCodec.decodedLen c = some c.length) ∧
    (∀ c : List Nat, idCodec.decode c = some c) ∧
    (∀ l : List Nat, idCodec.crc l < 2 ^ 32) ∧
    readAllFrames idCodec ((chunksOf [1, 2, 3, 4]).length + 1)
      (NewReader ((writerWrite listSink idCodec (NewWriter []) [1, 2, 3, 4]).2.sink) true)
      = .ok [1, 2, 3, 4] :=
  ⟨fun _ => rfl, fun _ h => h, fun _ => rfl, fun _ => rfl,
    fun l => Nat.mod_lt _ (by norm_num),
    roundtrip_writer_reader idCodec (fun c => c) (fun _ => rfl) (fun _ h => h)
      (fun _ => rfl) (fun _ => rfl) (fun l => Nat.mod_lt _ (by norm_num)) [1, 2, 3, 4]⟩

/-- C2: for every 32-bit value x, unmasking the masked checksum recovers x;
the mask is a right-rotation by 15 plus 0xa282ead8 in wrapping 32-bit
arithmetic and the unmask is its exact inverse. -/
theorem checksum_mask_inversion (x : Nat) (hx : x < 2 ^ 32) :
    unmaskChecksum (maskChecksum x) = x :=
  unmask_mask x hx

/-- Witness for C2 at the boundary values 0 and 0xFFFFFFFF. -/
theorem checksum_mask_inversion_witness :
    0 < 2 ^ 32 ∧ unmaskChecksum (maskChecksum 0) = 0 ∧
    0xFFFFFFFF < 2 ^ 32 ∧ unmaskChecksum (maskChecksum 0xFFFFFFFF) = 0xFFFFFFFF :=
  ⟨by decide, checksum_mask_inversion 0 (by decide),
    by decide, checksum_mask_inversion 0xFFFFFFFF (by decide)⟩

/-- C10: a Write call with empty input returns (0, nil) and leaves the
writer state — including the sink and the sent-stream-identifier flag —
completely unchanged, for every sink and codec. -/
theorem write_empty_noop {σ : Type} (ws : σ → List Nat → Option σ) (C : Codec)
    (w : WriterState σ) :
    writerWrite ws C w [] = ((0, none), w) := by
  unfold writerWrite
  rw [chunksOf_nil]
  rfl

/-- C4: a successful single-block write emits, in order: the 10-byte stream
identifier (only if not yet sent; the flag is set afterwards, so it is sent
exactly once per writer lifetime), then the 8-byte header consisting of the
compressed tag 0x00, the 3-byte little-endian value of the compressed
length plus 4, and the 4-byte little-endian masked CRC of the uncompressed
chunk, then the compressed payload. -/
theorem writeBlock_frame_emission (C : Codec) (w : WriterState (List Nat)) (c ec : List Nat)
    (henc : C.encode c = some ec) (hlen : c.length ≤ MaxBlockSize)
    (hfit : ec.length + 4 < 2 ^ 32) :
    (writeBlock listSink C w c).1 = (c.length, none) ∧
    (writeBlock listSink C w c).2.sink
        = (w.sink ++ (if w.sentStreamID then [] else streamID)) ++
          ((blockCompressed :: (le3 (ec.length + 4) ++ le4 (maskChecksum (C.crc c)))) ++ ec) ∧
    (writeBlock listSink C w c).2.sentStreamID = true := by
  have hu : u32 (ec.length + 4) = ec.length + 4 := by
    simp only [u32]
    omega
  rw [writeBlock_listSink C w c ec henc hlen, hu]
  exact ⟨rfl, rfl, rfl⟩

/-- Witness for C4: emitting a concrete two-byte block through the identity
codec from a fresh writer. -/
theorem writeBlock_frame_emission_witness :
    idCodec.encode [1, 2] = some [1, 2] ∧
    ([1, 2] : List Nat).length ≤ MaxBlockSize ∧
    ([1, 2] : List Nat).length + 4 < 2 ^ 32 ∧
    ((writeBlock listSink idCodec (NewWriter []) [1, 2]).1 = (([1, 2] : List Nat).length, none) ∧
      (writeBlock listSink idCodec (NewWriter []) [1, 2]).2.sink
        = ((NewWriter ([] : List Nat)).sink ++
            (if (NewWriter ([] : List Nat)).sentStreamID then [] else streamID)) ++
          ((blockCompressed :: (le3 (([1, 2] : List Nat).length + 4)
            ++ le4 (maskChecksum (idCodec.crc [1, 2])))) ++ [1, 2]) ∧
      (writeBlock listSink idCodec (NewWriter []) [1, 2]).2.sentStreamID = true) :=
  ⟨rfl, by decide, by decide,
    writeBlock_frame_emission idCodec (NewWriter []) [1, 2] [1, 2] rfl (by decide) (by decide)⟩

/-- C3 counterexample: the chunking loop slices at MaxBlockSize = 65536,
not at 65532; an input of 65533 bytes is kept as a single 65533-byte
chunk, which exceeds the claimed per-chunk limit of 65532. -/
theorem writer_chunk_limit_counterexample :
    ¬ (∀ c ∈ chunksOf (List.replicate 65533 0), c.length ≤ 65532) := by
  intro h
  have hne : (List.replicate 65533 (0 : Nat)) ≠ [] := by
    intro he
    have := congrArg List.length he
    rw [List.length_replicate, List.length_nil] at this
    exact absurd this (by omega)
  have hle : (List.replicate 65533 (0 : Nat)).length ≤ MaxBlockSize := by
    rw [List.length_replicate]
    decide
  have hc : chunksOf (List.replicate 65533 0) = [List.replicate 65533 0] := by
    rw [chunksOf_cons _ hne, List.take_of_length_le hle,
      List.drop_of_length_le hle, chunksOf_nil]
  have := h (List.replicate 65533 0) (by rw [hc]; exact List.mem_singleton.mpr rfl)
  rw [List.length_replicate] at this
  exact absurd this (by omega)

/-- C3 (amended): for every input longer than 65532 bytes the Write call
splits it into consecutive chunks each at most MaxBlockSize = 65536 bytes
(not 65532) whose concatenation is the input, and emits one frame per
chunk in input order after the stream identifier. -/
theorem writer_chunking (C : Codec) (E : List Nat → List Nat)
    (hE : ∀ c, C.encode c = some (E c))
    (hEB : ∀ c, c.length ≤ MaxBlockSize → (E c).length ≤ maxEncodedBlockSize)
    (p : List Nat) (hp : p.length > 65532) :
    (∀ c ∈ chunksOf p, c.length ≤ MaxBlockSize) ∧
    (chunksOf p).flatten = p ∧
    (writerWrite listSink C (NewWriter []) p).2.sink
        = streamID ++ ((chunksOf p).map (frameBytes C E)).flatten := by
  have hp' : p ≠ [] := by
    intro h
    rw [h] at hp
    simp at hp
  obtain ⟨h1, h2, h3⟩ := writerWrite_listSink C E hE hEB (NewWriter []) p rfl hp'
  exact ⟨chunksOf_length_le p, chunksOf_flatten p, by rw [h2]; rfl⟩

/-- Witness for C3 (amended) at a 65533-byte input with the identity
codec. -/
theorem writer_chunking_witness :
    (∀ c : List Nat, idCodec.encode c = some c) ∧
    (List.replicate 65533 (0 : Nat)).length > 65532 ∧
    ((∀ c ∈ chunksOf (List.replicate 65533 (0 : Nat)), c.length ≤ MaxBlockSize) ∧
      (chunksOf (List.replicate 65533 (0 : Nat))).flatten = List.replicate 65533 0 ∧
      (writerWrite listSink idCodec (NewWriter []) (List.replicate 65533 0)).2.sink
        = streamID ++
          ((chunksOf (List.replicate 65533 (0 : Nat))).map (frameBytes idCodec (fun c => c))).flatten) :=
  ⟨fun _ => rfl, by rw [List.length_replicate]; decide,
    writer_chunking idCodec (fun c => c) (fun _ => rfl) (fun _ h => h)
      (List.replicate 65533 0) (by rw [List.length_replicate]; decide)⟩

/-- A single-block write returns either the block's full length with no
error or zero with an error, for every sink and codec. -/
theorem writeBlock_contract {σ : Type} (ws : σ → List Nat → Option σ) (C : Codec)
    (w : WriterState σ) (p : List Nat) :
    (writeBlock ws C w p).1 = (p.length, none) ∨
    ((writeBlock ws C w p).1.1 = 0 ∧ (writeBlock ws C w p).1.2 ≠ none) := by
  unfold writeBlock
  by_cases hg : p.length > MaxBlockSize
  · right
    simp [hg]
  · rcases henc : C.encode p with _ | ec
    · right
      simp [hg, henc]
    · simp only [hg, henc, if_false]
      by_cases hsid : w.sentStreamID
      · rcases h1 : ws w.sink (blockCompressed :: (le3 (u32 (ec.length + 4))
          ++ le4 (maskChecksum (C.crc p)))) with _ | s1
        · right
          simp [hsid, h1]
        · rcases h2 : ws s1 ec with _ | s2
          · right
            simp [hsid, h1, h2]
          · left
            simp [hsid, h1, h2]
      · rcases h0 : ws w.sink streamID with _ | s0
        · right
          simp [hsid, h0]
        · rcases h1 : ws s0 (blockCompressed :: (le3 (u32 (ec.length + 4))
            ++ le4 (maskChecksum (C.crc p)))) with _ | s1
          · right
            simp [hsid, h0, h1]
          · rcases h2 : ws s1 ec with _ | s2
            · right
              simp [hsid, h0, h1, h2]
            · left
              simp [hsid, h0, h1, h2]

/-- The chunk loop returns either the accumulated total plus every chunk
length with no error, or zero with an error. -/
theorem writeChunks_contract {σ : Type} (ws : σ → List Nat → Option σ) (C : Codec) :
    ∀ (cs : List (List Nat)) (w : WriterState σ) (total : Nat),
      (writeChunks ws C w cs total).1 = (total + (cs.map List.length).sum, none) ∨
      ((writeChunks ws C w cs total).1.1 = 0 ∧ (writeChunks ws C w cs total).1.2 ≠ none) := by
  intro cs
  induction cs with
  | nil =>
    intro w total
    left
    simp [writeChunks]
  | cons c rest ih =>
    intro w total
    rcases hb : writeBlock ws C w c with ⟨⟨n, e⟩, w'⟩
    rcases writeBlock_contract ws C w c with h | ⟨h0, he⟩
    · rw [hb] at h
      obtain ⟨hn, hee⟩ := Prod.mk.injEq .. ▸ h
      simp only [Prod.mk.injEq] at h
      obtain ⟨hn, hee⟩ := h
      subst hn hee
      simp only [writeChunks, hb]
      rcases ih w' (total + c.length) with h' | h'
      · left
        rw [h']
        simp [Nat.add_assoc]
      · right
        exact h'
    · rw [hb] at h0 he
      simp only at h0 he
      rcases e with _ | e'
      · exact absurd rfl he
      · right
        subst h0
        simp [writeChunks, hb]

/-- C5: every Write call returns either the full input length with no
error, or zero together with a non-nil error — never an intermediate
count — for every sink behaviour (including sinks that fail after some
chunks of a multi-chunk input were already written) and every codec. -/
theorem write_return_contract {σ : Type} (ws : σ → List Nat → Option σ) (C : Codec)
    (w : WriterState σ) (p : List Nat) :
    ((writerWrite ws C w p).1.1 = p.length ∧ (writerWrite ws C w p).1.2 = none) ∨
    ((writerWrite ws C w p).1.1 = 0 ∧ (writerWrite ws C w p).1.2 ≠ none) := by
  unfold writerWrite
  rcases writeChunks_contract ws C (chunksOf p) w 0 with h | h
  · left
    rw [h]
    have : ((chunksOf p).map List.length).sum = p.length := by
      conv_rhs => rw [← chunksOf_flatten p]
      rw [List.length_flatten]
    rw [Nat.zero_add, this]
    exact ⟨rfl, rfl⟩
  · right
    exact h

/-- C6: on a fresh reader whose source starts with a frame whose type byte
is not the stream-identifier tag 0xff, any Read requesting at least one
byte fails with the missing-stream-identifier error, delivers no bytes,
and leaves the pending buffer empty — no frame of any kind is processed
before a stream identifier has been seen. -/
theorem missing_stream_identifier (C : Codec) (verify : Bool) (n t b1 b2 b3 : Nat)
    (tl : List Nat) (hn : 0 < n) (ht : t ≠ blockStreamIdentifier) :
    (readerRead C (NewReader (t :: b1 :: b2 :: b3 :: tl) verify) n).1
        = ([], some .missingStreamID) ∧
    (readerRead C (NewReader (t :: b1 :: b2 :: b3 :: tl) verify) n).2.buf = [] := by
  have h4 : ¬ (tl.length + 1 + 1 + 1 + 1 < 4) := by omega
  constructor <;>
    simp [readerRead, nextFrame, nextFrameLoop, NewReader, ht, hn, h4,
      List.take_succ_cons, List.drop_succ_cons]

/-- Witness for C6: a source beginning with a compressed-block frame is
rejected. -/
theorem missing_stream_identifier_witness :
    0 < 1 ∧ (0 : Nat) ≠ blockStreamIdentifier ∧
    ((readerRead idCodec (NewReader (0 :: 4 :: 0 :: 0 :: [9, 9, 9, 9]) true) 1).1
        = ([], some .missingStreamID) ∧
      (readerRead idCodec (NewReader (0 :: 4 :: 0 :: 0 :: [9, 9, 9, 9]) true) 1).2.buf = []) :=
  ⟨by decide, by decide,
    missing_stream_identifier idCodec true 1 0 4 0 0 [9, 9, 9, 9] (by decide) (by decide)⟩

/-- C7: a data-frame header whose declared 3-byte length exceeds the
allowed maximum of maxEncodedBlockSize + 4 (the block-size ceiling plus
the 4-byte checksum) makes `readBlock` fail immediately with the
block-too-large error, leaving the reader state — in particular the source
position and the raw working buffer size — completely untouched, so no
read or allocation proportional to the hostile length happens. -/
theorem oversized_block_rejected (st : ReaderState) (t b1 b2 b3 : Nat)
    (hhdr : st.hdr = [t, b1, b2, b3])
    (hover : decodeLength [b1, b2, b3] > maxEncodedBlockSize + 4) :
    readBlock st = (.error (.encBlockTooLarge (decodeLength [b1, b2, b3])), st) := by
  unfold readBlock
  rw [hhdr]
  simp only [List.drop_succ_cons, List.drop_zero]
  rw [if_pos hover]

/-- Witness for C7: a header declaring the maximal 24-bit length 0xffffff
is rejected with the state unchanged. -/
theorem oversized_block_rejected_witness :
    ({ NewReader [] true with hdr := [0, 0xff, 0xff, 0xff] } : ReaderState).hdr
        = [0, 0xff, 0xff, 0xff] ∧
    decodeLength [0xff, 0xff, 0xff] > maxEncodedBlockSize + 4 ∧
    readBlock { NewReader [] true with hdr := [0, 0xff, 0xff, 0xff] }
        = (.error (.encBlockTooLarge (decodeLength [0xff, 0xff, 0xff])),
          { NewReader [] true with hdr := [0, 0xff, 0xff, 0xff] }) :=
  ⟨rfl, by decide,
    oversized_block_rejected { NewReader [] true with hdr := [0, 0xff, 0xff, 0xff] }
      0 0xff 0xff 0xff rfl (by decide)⟩

/-- C8: for a well-formed compressed or uncompressed data frame, when
checksum verification is enabled the reader errors exactly when the
unmasked wire checksum differs from the checksum recomputed over the
decompressed bytes, and otherwise appends those bytes to the pending
buffer; when verification is disabled the decompressed bytes are appended
and no error is returned regardless of the wire checksum, as long as
decompression itself succeeds. -/
theorem checksum_verification_semantics (C : Codec) (st : ReaderState)
    (t b1 b2 b3 declen : Nat) (payload rest data : List Nat)
    (hhdr : st.hdr = [t, b1, b2, b3])
    (hL : decodeLength [b1, b2, b3] = payload.length)
    (hbound : payload.length ≤ maxEncodedBlockSize + 4)
    (h4 : 4 ≤ payload.length)
    (hsrc : st.source = payload ++ rest)
    (ht : t = blockCompressed ∨ t = blockUncompressed)
    (hcomp : t = blockCompressed →
      C.decodedLen (payload.drop 4) = some declen ∧ C.decode (payload.drop 4) = some data)
    (huncomp : t = blockUncompressed → declen = payload.length - 4 ∧ data = payload.drop 4)
    (hdeclen : declen ≤ MaxBlockSize) :
    (st.verifyChecksum = true →
      (unmaskChecksum (le32of (payload.take 4)) ≠ C.crc data →
        (decodeBlock C st).1 = some .checksumMismatch) ∧
      (unmaskChecksum (le32of (payload.take 4)) = C.crc data →
        (decodeBlock C st).1 = none ∧
        (decodeBlock C st).2.buf = st.buf ++ data)) ∧
    (st.verifyChecksum = false →
      (decodeBlock C st).1 = none ∧
      (decodeBlock C st).2.buf = st.buf ++ data) := by
  obtain ⟨g1, g2, g3, g4, g5, g6⟩ := decodeBlock_spec C st t b1 b2 b3 declen
    payload rest data hhdr hL hbound h4 hsrc ht hcomp huncomp hdeclen
  refine ⟨fun hv => ⟨fun hne => ?_, fun heq => ?_⟩, fun hv => ?_⟩
  · rw [g1, if_pos ⟨hv, hne⟩]
  · have hcond : ¬ (st.verifyChecksum = true ∧
        unmaskChecksum (le32of (payload.take 4)) ≠ C.crc data) :=
      fun hh => hh.2 heq
    rw [g1, g2, if_neg hcond, if_neg hcond]
    exact ⟨rfl, rfl⟩
  · have hcond : ¬ (st.verifyChecksum = true ∧
        unmaskChecksum (le32of (payload.take 4)) ≠ C.crc data) := by
      intro hh
      rw [hv] at hh
      exact absurd hh.1 (by simp)
    rw [g1, g2, if_neg hcond, if_neg hcond]
    exact ⟨rfl, rfl⟩

/-- Witness for C8: a concrete five-byte uncompressed frame on a reader
with verification disabled. -/
theorem checksum_verification_semantics_witness :
    ({ NewReader [99, 0, 0, 0, 7] false with hdr := [1, 5, 0, 0] } : ReaderState).hdr
        = [1, 5, 0, 0] ∧
    decodeLength [5, 0, 0] = ([99, 0, 0, 0, 7] : List Nat).length ∧
    ([99, 0, 0, 0, 7] : List Nat).length ≤ maxEncodedBlockSize + 4 ∧
    (({ NewReader [99, 0, 0, 0, 7] false with hdr := [1, 5, 0, 0] } : ReaderState).verifyChecksum = false →
      (decodeBlock idCodec { NewReader [99, 0, 0, 0, 7] false with hdr := [1, 5, 0, 0] }).1 = none ∧
      (decodeBlock idCodec { NewReader [99, 0, 0, 0, 7] false with hdr := [1, 5, 0, 0] }).2.buf
        = ({ NewReader [99, 0, 0, 0, 7] false with hdr := [1, 5, 0, 0] } : ReaderState).buf ++ [7]) :=
  ⟨rfl, by decide, by decide,
    (checksum_verification_semantics idCodec
      { NewReader [99, 0, 0, 0, 7] false with hdr := [1, 5, 0, 0] }
      1 5 0 0 1 [99, 0, 0, 0, 7] [] [7]
      rfl (by decide) (by decide) (by decide) rfl (Or.inr rfl)
      (fun h => absurd h (by decide)) (fun _ => ⟨by decide, rfl⟩) (by decide)).2⟩

/-- C9 counterexample: a reachable Read makes the raw-payload working
buffer grow to 65540 bytes — beyond the 65536-byte block-size ceiling —
because the declared-length bound is maxEncodedBlockSize + 4, not
MaxBlockSize: a stream identifier followed by a compressed-frame header
declaring length 0x010004 = 65540 passes the bound check and the buffer is
resized before the payload read fails. -/
theorem working_buffer_ceiling_counterexample :
    65536 < (readerRead idCodec
      (NewReader (streamID ++ [0x00, 0x04, 0x00, 0x01]) true) 1).2.srcLen := by
  decide

/-- The raw working buffer only grows in `readBlock`, and only up to the
declared-length bound. -/
theorem readBlock_buffers (st : ReaderState) (hs : st.srcLen ≤ maxEncodedBlockSize + 4) :
    (readBlock st).2.srcLen ≤ maxEncodedBlockSize + 4 ∧
    st.srcLen ≤ (readBlock st).2.srcLen ∧
    (readBlock st).2.dstLen = st.dstLen := by
  by_cases h1 : maxEncodedBlockSize + 4 < decodeLength st.hdr.tail <;>
    by_cases h2 : st.srcLen < decodeLength st.hdr.tail <;>
      by_cases h3 : st.source.length < decodeLength st.hdr.tail <;>
        simp [readBlock, List.drop_one, h1, h2, h3] <;>
          omega

/-- `decodeBlock` keeps the raw working buffer within the declared-length
bound and the decompression buffer within the block-size ceiling, given
that the codec reports decoded lengths consistently (the snappy
contract). -/
theorem decodeBlock_buffers (C : Codec)
    (hC : ∀ p d, C.decode p = some d → C.decodedLen p = some d.length)
    (st : ReaderState) (hs : st.srcLen ≤ maxEncodedBlockSize + 4)
    (hd : st.dstLen ≤ MaxBlockSize) :
    (decodeBlock C st).2.srcLen ≤ maxEncodedBlockSize + 4 ∧
    st.srcLen ≤ (decodeBlock C st).2.srcLen ∧
    (decodeBlock C st).2.dstLen ≤ MaxBlockSize := by
  obtain ⟨hb1, hb2, hb3⟩ := readBlock_buffers st hs
  rcases hrb : readBlock st with ⟨res, st'⟩
  rw [hrb] at hb1 hb2 hb3
  rcases res with e | buf
  · simp only [decodeBlock, hrb]
    exact ⟨hb1, hb2, hb3 ▸ hd⟩
  · by_cases hb4 : buf.length < 4
    · simp only [decodeBlock, hrb, if_pos hb4]
      exact ⟨hb1, hb2, hb3 ▸ hd⟩
    · by_cases hcompb : st'.hdr.getD 0 0 = blockCompressed
      · rcases hdlv : C.decodedLen (buf.drop 4) with _ | declen
        · simp only [decodeBlock, hrb, if_neg hb4, if_pos hcompb, hdlv]
          exact ⟨hb1, hb2, hb3 ▸ hd⟩
        · by_cases hdle : declen > MaxBlockSize
          · simp only [decodeBlock, hrb, if_neg hb4, if_pos hcompb, hdlv, if_pos hdle]
            exact ⟨hb1, hb2, hb3 ▸ hd⟩
          · rcases hdecv : C.decode (buf.drop 4) with _ | data
            · simp only [decodeBlock, hrb, if_neg hb4, if_pos hcompb, hdlv, if_neg hdle, hdecv]
              exact ⟨hb1, hb2, hb3 ▸ hd⟩
            · have hdata : data.length = declen := by
                have h := hC _ _ hdecv
                rw [hdlv] at h
                exact (Option.some.injEq _ _ ▸ h).symm
              by_cases hv : st'.verifyChecksum = true
              · by_cases hck : unmaskChecksum (le32of (buf.take 4)) = C.crc data
                · simp only [decodeBlock, hrb, if_neg hb4, if_pos hcompb, hdlv,
                    if_neg hdle, hdecv, hv, hck]
                  simp_all
                · simp only [decodeBlock, hrb, if_neg hb4, if_pos hcompb, hdlv,
                    if_neg hdle, hdecv, hv, hck]
                  simp_all
              · simp only [decodeBlock, hrb, if_neg hb4, if_pos hcompb, hdlv,
                  if_neg hdle, hdecv]
                simp_all
      · by_cases hdle : (buf.drop 4).length > MaxBlockSize
        · simp only [decodeBlock, hrb, if_neg hb4, if_neg hcompb, if_pos hdle]
          exact ⟨hb1, hb2, hb3 ▸ hd⟩
        · simp only [decodeBlock, hrb, if_neg hb4, if_neg hcompb, if_neg hdle]
          by_cases hv : st'.verifyChecksum = true
          · by_cases hck : unmaskChecksum (le32of (buf.take 4)) = C.crc (buf.drop 4)
            · simp_all
            · simp_all
          · simp_all

/-- Validating the stream identifier never touches the working buffers. -/
theorem readStreamID_buffers (st : ReaderState) :
    (readStreamID st).2.srcLen = st.srcLen ∧ (readStreamID st).2.dstLen = st.dstLen := by
  unfold readStreamID
  split_ifs <;> exact ⟨rfl, rfl⟩

/-- Discarding a block never touches the working buffers. -/
theorem discardBlock_buffers (st : ReaderState) :
    (discardBlock st).2.srcLen = st.srcLen ∧ (discardBlock st).2.dstLen = st.dstLen := by
  by_cases h : st.source.length < decodeLength st.hdr.tail <;>
    simp [discardBlock, List.drop_one, h]

/-- Invariant of the frame loop: the raw working buffer stays within
maxEncodedBlockSize + 4 and only grows, and the decompression buffer stays
within MaxBlockSize, for codecs with consistent decoded lengths. -/
theorem nextFrameLoop_buffers (C : Codec)
    (hC : ∀ p d, C.decode p = some d → C.decodedLen p = some d.length) :
    ∀ (fuel : Nat) (st : ReaderState),
      st.srcLen ≤ maxEncodedBlockSize + 4 → st.dstLen ≤ MaxBlockSize →
      (nextFrameLoop C fuel st).2.srcLen ≤ maxEncodedBlockSize + 4 ∧
      st.srcLen ≤ (nextFrameLoop C fuel st).2.srcLen ∧
      (nextFrameLoop C fuel st).2.dstLen ≤ MaxBlockSize := by
  intro fuel
  induction fuel with
  | zero =>
    intro st hs hd
    exact ⟨hs, Nat.le_refl _, hd⟩
  | succ fuel ih =>
    intro st hs hd
    by_cases h4 : st.source.length < 4
    · by_cases hemp : st.source.isEmpty <;> simp [nextFrameLoop, h4, hemp, hs, hd]
    · by_cases ht1 : st.source[0]?.getD 0 = blockStreamIdentifier
      · rcases hrs : readStreamID { st with hdr := st.source.take 4, source := st.source.drop 4 } with ⟨_ | e1', st2⟩
        · have hrsb := readStreamID_buffers { st with hdr := st.source.take 4, source := st.source.drop 4 }
          rw [hrs] at hrsb
          have hs2 : st2.srcLen = st.srcLen := hrsb.1
          have hd2 : st2.dstLen = st.dstLen := hrsb.2
          obtain ⟨i1, i2, i3⟩ := ih { st2 with seenStreamID := true }
            (show st2.srcLen ≤ maxEncodedBlockSize + 4 by omega)
            (show st2.dstLen ≤ MaxBlockSize by omega)
          have i2' : st2.srcLen
              ≤ (nextFrameLoop C fuel { st2 with seenStreamID := true }).2.srcLen := i2
          refine ⟨?_, ?_, ?_⟩ <;> simp [nextFrameLoop, h4, ht1, hrs] <;> omega
        · have hrsb := readStreamID_buffers { st with hdr := st.source.take 4, source := st.source.drop 4 }
          rw [hrs] at hrsb
          have hs2 : st2.srcLen = st.srcLen := hrsb.1
          have hd2 : st2.dstLen = st.dstLen := hrsb.2
          refine ⟨?_, ?_, ?_⟩ <;> simp [nextFrameLoop, h4, ht1, hrs] <;> omega
      · by_cases hsn : st.seenStreamID = false
        · refine ⟨?_, ?_, ?_⟩ <;> simp [nextFrameLoop, h4, ht1, hsn] <;> omega
        · by_cases htd : st.source[0]?.getD 0 = blockCompressed ∨
              st.source[0]?.getD 0 = blockUncompressed
          · have hsn' : st.seenStreamID = true := by simpa using hsn
            have hdcb := decodeBlock_buffers C hC
              { st with hdr := st.source.take 4, source := st.source.drop 4 } hs hd
            have j1 : (decodeBlock C { st with hdr := st.source.take 4, source := st.source.drop 4 }).2.srcLen ≤ maxEncodedBlockSize + 4 := hdcb.1
            have j2 : st.srcLen ≤ (decodeBlock C { st with hdr := st.source.take 4, source := st.source.drop 4 }).2.srcLen := hdcb.2.1
            have j3 : (decodeBlock C { st with hdr := st.source.take 4, source := st.source.drop 4 }).2.dstLen ≤ MaxBlockSize := hdcb.2.2
            rw [hsn'] at j1 j2 j3
            refine ⟨?_, ?_, ?_⟩ <;> simp [nextFrameLoop, h4, ht1, hsn, htd] <;> omega
          · by_cases htp : st.source[0]?.getD 0 = blockPadding ∨
                (0x80 ≤ st.source[0]?.getD 0 ∧ st.source[0]?.getD 0 ≤ 0xfd)
            · rcases hdb : discardBlock { st with hdr := st.source.take 4, source := st.source.drop 4 } with ⟨_ | e2', st3⟩
              · have hsn' : st.seenStreamID = true := by simpa using hsn
                have hdbb := discardBlock_buffers { st with hdr := st.source.take 4, source := st.source.drop 4 }
                rw [hdb] at hdbb
                have hs3 : st3.srcLen = st.srcLen := hdbb.1
                have hd3 : st3.dstLen = st.dstLen := hdbb.2
                rw [hsn'] at hdb
                obtain ⟨i1, i2, i3⟩ := ih st3
                  (show st3.srcLen ≤ maxEncodedBlockSize + 4 by omega)
                  (show st3.dstLen ≤ MaxBlockSize by omega)
                have i2' : st3.srcLen ≤ (nextFrameLoop C fuel st3).2.srcLen := i2
                refine ⟨?_, ?_, ?_⟩ <;> simp [nextFrameLoop, h4, ht1, hsn, htd, htp, hdb] <;> omega
              · have hsn' : st.seenStreamID = true := by simpa using hsn
                have hdbb := discardBlock_buffers { st with hdr := st.source.take 4, source := st.source.drop 4 }
                rw [hdb] at hdbb
                have hs3 : st3.srcLen = st.srcLen := hdbb.1
                have hd3 : st3.dstLen = st.dstLen := hdbb.2
                rw [hsn'] at hdb
                refine ⟨?_, ?_, ?_⟩ <;> simp [nextFrameLoop, h4, ht1, hsn, htd, htp, hdb] <;> omega
            · rcases hdb : discardBlock { st with hdr := st.source.take 4, source := st.source.drop 4 } with ⟨_ | e2', st3⟩ <;>
                · have hsn' : st.seenStreamID = true := by simpa using hsn
                  have hdbb := discardBlock_buffers { st with hdr := st.source.take 4, source := st.source.drop 4 }
                  rw [hdb] at hdbb
                  have hs3 : st3.srcLen = st.srcLen := hdbb.1
                  have hd3 : st3.dstLen = st.dstLen := hdbb.2
                  rw [hsn'] at hdb
                  refine ⟨?_, ?_, ?_⟩ <;> simp [nextFrameLoop, h4, ht1, hsn, htd, htp, hdb] <;> omega

/-- Draining the pending buffer never touches the working buffers. -/
theorem bufferRead_buffers (st : ReaderState) (n : Nat) :
    (bufferRead st n).2.srcLen = st.srcLen ∧ (bufferRead st n).2.dstLen = st.dstLen := by
  by_cases h : st.buf = [] ∧ ¬n = 0 <;> simp [bufferRead, h]

/-- C9 (amended): across every Read call the reusable raw-payload buffer
grows monotonically and never exceeds maxEncodedBlockSize + 4 = 65540
bytes (not the 65536 block-size ceiling), and the decompression buffer
never exceeds the 65536-byte block-size ceiling, provided the codec
reports decoded lengths consistently with what it decodes. Together with
the initial sizes of 4096 set by NewReader, this bounds the buffers across
every sequence of Read calls. -/
theorem read_buffer_bounds (C : Codec)
    (hC : ∀ p d, C.decode p = some d → C.decodedLen p = some d.length)
    (st : ReaderState) (n : Nat)
    (hs : st.srcLen ≤ maxEncodedBlockSize + 4) (hd : st.dstLen ≤ MaxBlockSize) :
    (readerRead C st n).2.srcLen ≤ maxEncodedBlockSize + 4 ∧
    st.srcLen ≤ (readerRead C st n).2.srcLen ∧
    (readerRead C st n).2.dstLen ≤ MaxBlockSize := by
  have hnf0 := nextFrameLoop_buffers C hC (st.source.length + 1) st hs hd
  have i1 : (nextFrame C st).2.srcLen ≤ maxEncodedBlockSize + 4 := hnf0.1
  have i2 : st.srcLen ≤ (nextFrame C st).2.srcLen := hnf0.2.1
  have i3 : (nextFrame C st).2.dstLen ≤ MaxBlockSize := hnf0.2.2
  rcases hnf : nextFrame C st with ⟨e1, st1⟩
  rw [hnf] at i1 i2 i3
  have i1' : st1.srcLen ≤ maxEncodedBlockSize + 4 := i1
  have i2' : st.srcLen ≤ st1.srcLen := i2
  have i3' : st1.dstLen ≤ MaxBlockSize := i3
  rcases herr : st.err with _ | e0
  · by_cases hlen : st.buf.length < n
    · have hbr1 : (bufferRead { st1 with err := some RErr.eof } n).2.srcLen = st1.srcLen :=
        (bufferRead_buffers _ _).1
      have hbr2 : (bufferRead { st1 with err := some RErr.eof } n).2.dstLen = st1.dstLen :=
        (bufferRead_buffers _ _).2
      have hbr3 : (bufferRead { st1 with err := none } n).2.srcLen = st1.srcLen :=
        (bufferRead_buffers _ _).1
      have hbr4 : (bufferRead { st1 with err := none } n).2.dstLen = st1.dstLen :=
        (bufferRead_buffers _ _).2
      rcases e1 with _ | e1'
      · refine ⟨?_, ?_, ?_⟩ <;> simp [readerRead, herr, hlen, hnf] <;> omega
      · cases e1' <;> (refine ⟨?_, ?_, ?_⟩ <;> simp [readerRead, herr, hlen, hnf] <;> omega)
    · have hbr1 : (bufferRead st n).2.srcLen = st.srcLen := (bufferRead_buffers _ _).1
      have hbr2 : (bufferRead st n).2.dstLen = st.dstLen := (bufferRead_buffers _ _).2
      refine ⟨?_, ?_, ?_⟩ <;> simp [readerRead, herr, hlen] <;> omega
  · refine ⟨?_, ?_, ?_⟩ <;> simp [readerRead, herr] <;> omega

/-- Witness for C9 (amended): the identity codec reports lengths
consistently and the bounds hold for a fresh reader. -/
theorem read_buffer_bounds_witness :
    (∀ p d : List Nat, idCodec.decode p = some d → idCodec.decodedLen p = some d.length) ∧
    (NewReader [] true).srcLen ≤ maxEncodedBlockSize + 4 ∧
    (NewReader [] true).dstLen ≤ MaxBlockSize ∧
    ((readerRead idCodec (NewReader [] true) 0).2.srcLen ≤ maxEncodedBlockSize + 4 ∧
      (NewReader [] true).srcLen ≤ (readerRead idCodec (NewReader [] true) 0).2.srcLen ∧
      (readerRead idCodec (NewReader [] true) 0).2.dstLen ≤ MaxBlockSize) :=
  ⟨fun p d h => by cases h; rfl, by decide, by decide,
    read_buffer_bounds idCodec (fun p d h => by cases h; rfl) (NewReader [] true) 0
      (by decide) (by decide)⟩
